import Mathlib

set_option maxRecDepth 10000

/-! Shallow embedding of the ontology-mapping cache subsystem of
scripts/process_sheet_and_save.py: the shared mappings store, the entry
merge algorithm, the snapshot builder with its fallback decomposition,
the LLM update path and the per-record orchestration. Strings are
modelled as lists of characters; Python string operations (strip, lower,
replace, split) are translated as executable functions. -/

abbrev Str := List Char

def strL (s : String) : Str := s.data

/-- Python truthiness of an optional string: None and the empty string are falsy. -/
def truthyStr (o : Option Str) : Bool := !(o.getD []).isEmpty

/-- Bool test that the first list is a leading segment of the second. -/
def isPre : Str → Str → Bool
  | [], _ => true
  | _ :: _, [] => false
  | a :: xs, b :: ys => a == b && isPre xs ys

def consHead (c : Char) : List Str → List Str
  | [] => [[c]]
  | h :: tl => (c :: h) :: tl

/-- Python str.split for a nonempty separator o :: sep. The fuel argument makes
the recursion structural; the wrapper pySplit supplies enough fuel. -/
def pySplitF (o : Char) (sep : Str) : Nat → Str → List Str
  | 0, _ => [[]]
  | _ + 1, [] => [[]]
  | fuel + 1, c :: t =>
      if isPre (o :: sep) (c :: t) then [] :: pySplitF o sep fuel (t.drop sep.length)
      else consHead c (pySplitF o sep fuel t)

def pySplit (o : Char) (sep s : Str) : List Str := pySplitF o sep s.length s

/-- Python str.replace for a nonempty pattern o :: old, scanning left to right
over non-overlapping occurrences. The fuel argument makes the recursion
structural; the wrapper pyReplace supplies enough fuel. -/
def pyReplaceF (o : Char) (old new : Str) : Nat → Str → Str
  | 0, s => s
  | _ + 1, [] => []
  | fuel + 1, c :: t =>
      if isPre (o :: old) (c :: t) then new ++ pyReplaceF o old new fuel (t.drop old.length)
      else c :: pyReplaceF o old new fuel t

def pyReplace (o : Char) (old new s : Str) : Str := pyReplaceF o old new s.length s

def isPySpace (c : Char) : Bool :=
  c == ' ' || c == '\t' || c == '\n' || c == '\r' || c == '\x0b' || c == '\x0c'

/-- Python str.strip: drop whitespace from both ends. -/
def pyStrip (s : Str) : Str :=
  ((s.dropWhile isPySpace).reverse.dropWhile isPySpace).reverse

/-- Source _norm_key: str(s).strip().lower() for a string input. -/
def normKey (s : Str) : Str := (pyStrip s).map Char.toLower

/-- Python string comparison, lexicographic by code point. -/
def strLt : Str → Str → Bool
  | [], [] => false
  | [], _ :: _ => true
  | _ :: _, [] => false
  | a :: xs, b :: ys => if a.val < b.val then true else if a == b then strLt xs ys else false

def insertSorted (x : Str) : List Str → List Str
  | [] => [x]
  | y :: ys => if strLt y x then y :: insertSorted x ys else x :: y :: ys

/-- Insertion sort in the Python string order, modelling sorted(...). -/
def sortStrs (l : List Str) : List Str := l.foldr insertSorted []

/-- Python "; ".join. -/
def joinSemi : List Str → Str
  | [] => []
  | [x] => x
  | x :: xs => x ++ ';' :: ' ' :: joinSemi xs

/-! ## Data model: ConceptEntry and the merge algorithm of _merge_mapping_list -/

structure ConceptEntry where
  concept_label : Option Str
  ontology_id : Option Str
  ontology : Option Str
  confidence : Option ℚ
  explanation : Option Str
deriving DecidableEq, Repr

/-- Identity key of an entry: the pair (ontology_id or "", ontology or ""). -/
def identKey (m : ConceptEntry) : Str × Str := (m.ontology_id.getD [], m.ontology.getD [])

/-- Confidence with null treated as 0, modelling (x or 0) for an optional number. -/
def confVal (o : Option ℚ) : ℚ := o.getD 0

/-- Explanation merge of _merge_mapping_list: strip both truthy explanations,
deduplicate, sort, semicolon-join; None when both are empty. -/
def explMerge (curE mE : Option Str) : Option Str :=
  let raw := ([curE.getD [], mE.getD []].filter (fun s => !s.isEmpty)).map pyStrip
  let exSet := raw.foldl (fun acc x => if acc.contains x then acc else acc ++ [x]) []
  if exSet.isEmpty then none else some (joinSemi (sortStrs exSet))

/-- In-place update of an existing entry by an incoming entry with the same
identity key: keep the higher confidence, prefer a non-null concept_label,
merge explanations. -/
def updEntry (cur m : ConceptEntry) : ConceptEntry :=
  { cur with
    confidence := if confVal m.confidence > confVal cur.confidence then m.confidence else cur.confidence
    concept_label :=
      if !truthyStr cur.concept_label && truthyStr m.concept_label then m.concept_label
      else cur.concept_label
    explanation := explMerge cur.explanation m.explanation }

/-- Python dict assignment d[key(m)] = m on an association list keyed by identKey:
replace in place when the key is present, append otherwise. -/
def dictPut (acc : List ConceptEntry) (m : ConceptEntry) : List ConceptEntry :=
  if acc.any (fun e => identKey e = identKey m) then
    acc.map (fun e => if identKey e = identKey m then m else e)
  else acc ++ [m]

/-- One step of the merge loop of _merge_mapping_list: update in place when the
incoming identity key is present, append the incoming entry otherwise. -/
def mergeStep (acc : List ConceptEntry) (m : ConceptEntry) : List ConceptEntry :=
  if acc.any (fun e => identKey e = identKey m) then
    acc.map (fun e => if identKey e = identKey m then updEntry e m else e)
  else acc ++ [m]

/-- Source _merge_mapping_list: build by_id from the existing list, fold the
incoming list through the update-or-append step, return the values. -/
def mergeMappingList (existing new : List ConceptEntry) : List ConceptEntry :=
  new.foldl mergeStep (existing.foldl dictPut [])

/-! ## Store, buckets, snapshot builder and load -/

abbrev TermBucket := List (Str × List ConceptEntry)
abbrev Store := List (Str × TermBucket)

def bucketHas (b : TermBucket) (t : Str) : Bool := b.any (fun p => p.1 = t)

def bucketGet (b : TermBucket) (t : Str) : List ConceptEntry :=
  match b.find? (fun p => p.1 = t) with
  | some p => p.2
  | none => []

/-- Python dict assignment on a term bucket. -/
def bucketPut (b : TermBucket) (t : Str) (v : List ConceptEntry) : TermBucket :=
  if bucketHas b t then b.map (fun p => if p.1 = t then (p.1, v) else p) else b ++ [(t, v)]

def storeHasKey (st : Store) (k : Str) : Bool := st.any (fun p => p.1 = k)

/-- Python store.get(cat, the empty dict). -/
def storeGetCat (st : Store) (k : Str) : TermBucket :=
  match st.find? (fun p => p.1 = k) with
  | some p => p.2
  | none => []

/-- Python dict assignment on the store. -/
def storePutCat (st : Store) (k : Str) (b : TermBucket) : Store :=
  if storeHasKey st k then st.map (fun p => if p.1 = k then (p.1, b) else p) else st ++ [(k, b)]

/-- Python dict.setdefault(k, the empty dict). -/
def storeSetdefault (st : Store) (k : Str) : Store :=
  if storeHasKey st k then st else st ++ [(k, [])]

def roleKey : Str := strL "Role"
def expertiseKey : Str := strL "Expertise"
def interestKey : Str := strL "Interest"

/-- Source _ensure_store_keys: setdefault the three category keys in order. -/
def ensureStoreKeys (st : Store) : Store :=
  storeSetdefault (storeSetdefault (storeSetdefault st roleKey) expertiseKey) interestKey

def emptyStore : Store := [(roleKey, []), (expertiseKey, []), (interestKey, [])]

/-- State of the persisted store file, as seen by _load_store: missing file,
zero-size file, a file whose JSON does not parse as an object of term buckets,
or a parsed object. -/
inductive FileState
  | absent
  | empty
  | unparsable
  | parsed (data : Store)
deriving DecidableEq, Repr

/-- Source _load_store: absent, empty or unparsable files give the fresh
three-category store; a parsed object gets the three keys set-defaulted.
The translation is total, so loading never raises. -/
def loadStore : FileState → Store
  | .absent => emptyStore
  | .empty => emptyStore
  | .unparsable => emptyStore
  | .parsed data => ensureStoreKeys data

def sepAndTail : Str := strL "and "

/-- Fallback decomposition of _snapshot_user_mappings_from_store: replace
" and " by a comma, split on commas, strip each chunk, keep nonempty chunks. -/
def chunksOf (term : Str) : List Str :=
  ((pySplit ',' [] (pyReplace ' ' sepAndTail (strL ",") term)).map pyStrip).filter
    (fun c => !c.isEmpty)

/-- First-seen deduplication by identity key over the chunk lookups, modelling
the seen set of the fallback loop. -/
def dedupByKey (l : List ConceptEntry) : List ConceptEntry :=
  (l.foldl
    (fun (acc : List ConceptEntry × List (Str × Str)) m =>
      if acc.2.any (fun k => k = identKey m) then acc
      else (acc.1 ++ [m], acc.2 ++ [identKey m]))
    ([], [])).1

/-- Snapshot for one category of _snapshot_user_mappings_from_store: empty
normalized value gives the empty list; an exact key match returns the bucket
entries; otherwise the comma/and fallback with first-seen deduplication. -/
def snapshotCat (st : Store) (catKey : Str) (value : Str) : List ConceptEntry :=
  let term := normKey value
  if term.isEmpty then []
  else if bucketHas (storeGetCat st catKey) term then bucketGet (storeGetCat st catKey) term
  else dedupByKey ((chunksOf term).flatMap (fun ch => bucketGet (storeGetCat st catKey) ch))

structure RecordFields where
  role : Str
  expertise : Str
  interest : Str
deriving DecidableEq, Repr

structure Snapshot where
  role : List ConceptEntry
  expertise : List ConceptEntry
  interest : List ConceptEntry
deriving DecidableEq, Repr

/-- Source _snapshot_user_mappings_from_store over the three categories. -/
def snapshotUserMappings (st : Store) (f : RecordFields) : Snapshot :=
  ⟨snapshotCat st roleKey f.role,
   snapshotCat st expertiseKey f.expertise,
   snapshotCat st interestKey f.interest⟩

/-! ## Classifier response and _update_store_with_llm -/

/-- One well-shaped item of the parsed classifier response: the optional
fields read by _update_store_with_llm. -/
structure LLMItem where
  source_term : Option Str
  concept_label : Option Str
  ontology_id : Option Str
  ontology : Option Str
  confidence : Option ℚ
  explanation : Option Str
deriving DecidableEq, Repr

/-- One element of a category list in the parsed response body: either a JSON
object, or a non-object value (for example a bare string) on which the lookup
of source_term raises AttributeError. -/
inductive RespItem
  | obj (it : LLMItem)
  | nonObj (v : Str)
deriving DecidableEq, Repr

/-- Value of one category key in the parsed response body: a list of items, or
absent/null/falsy, which the source turns into the empty list. -/
inductive RespVal
  | list (xs : List RespItem)
  | absent
deriving DecidableEq, Repr

/-- A parsed response body: a JSON object read at the three category keys. -/
structure RespBody where
  role : RespVal
  expertise : RespVal
  interest : RespVal
deriving DecidableEq, Repr

def toEntry (it : LLMItem) : ConceptEntry :=
  ⟨it.concept_label, it.ontology_id, it.ontology, it.confidence, it.explanation⟩

/-- Reading a field of a response item: raises on a non-object item. -/
def asObj : RespItem → Except Unit LLMItem
  | .obj it => .ok it
  | .nonObj _ => .error ()

def itemsOf : RespVal → List RespItem
  | .list xs => xs
  | .absent => []

/-- Python dict.setdefault(term, empty list).append(entry). -/
def groupAdd (d : List (Str × List ConceptEntry)) (t : Str) (e : ConceptEntry) :
    List (Str × List ConceptEntry) :=
  if d.any (fun p => p.1 = t) then d.map (fun p => if p.1 = t then (p.1, p.2 ++ [e]) else p)
  else d ++ [(t, [e])]

/-- Grouping loop of _update_store_with_llm: key each item by the normalized
source_term, skipping empty terms. -/
def groupByTerm (items : List LLMItem) : List (Str × List ConceptEntry) :=
  items.foldl
    (fun d it =>
      let term := normKey (it.source_term.getD [])
      if term.isEmpty then d else groupAdd d term (toEntry it))
    []

/-- Per-category body of _update_store_with_llm: check every item is an
object, group by source_term, then merge each group into the bucket. -/
def updateCat (bucket : TermBucket) (rv : RespVal) : Except Unit TermBucket := do
  let its ← (itemsOf rv).mapM asObj
  let byTerm := groupByTerm its
  return byTerm.foldl (fun b p => bucketPut b p.1 (mergeMappingList (bucketGet b p.1) p.2)) bucket

/-- Source _update_store_with_llm: ensure the three keys, then process the
categories in order, propagating the AttributeError of a non-object item. -/
def updateStoreWithLLM (st : Store) (body : RespBody) : Except Unit Store := do
  let st0 := ensureStoreKeys st
  let r ← updateCat (storeGetCat st0 roleKey) body.role
  let st1 := storePutCat st0 roleKey r
  let e ← updateCat (storeGetCat st1 expertiseKey) body.expertise
  let st2 := storePutCat st1 expertiseKey e
  let i ← updateCat (storeGetCat st2 interestKey) body.interest
  return storePutCat st2 interestKey i

/-! ## Per-record orchestration of write_json_pretty -/

/-- Decide step of write_json_pretty: some category has an empty snapshot and
a nonempty normalized field value. -/
def needsEnrichment (st : Store) (f : RecordFields) : Bool :=
  let snap := snapshotUserMappings st f
  (snap.role.isEmpty && !(normKey f.role).isEmpty) ||
  (snap.expertise.isEmpty && !(normKey f.expertise).isEmpty) ||
  (snap.interest.isEmpty && !(normKey f.interest).isEmpty)

/-- Per-record body of write_json_pretty: build the snapshot, decide whether a
classifier call is warranted, make at most one call (requiring the API key as
in get_mappings), merge its response when present and rebuild the snapshot.
The first component counts the classifier calls made for the record; the
oracle argument is the outcome _call_openrouter would deliver for the single
joint call: none when every exception was swallowed into None, some body when
the response content parsed as JSON. -/
def processRecord (st : Store) (f : RecordFields) (enableMapping apiKey : Bool)
    (oracle : Option RespBody) : Nat × Except Unit (Store × Snapshot) :=
  let snap := snapshotUserMappings st f
  if enableMapping && needsEnrichment st f then
    if apiKey then
      match oracle with
      | none => (1, .ok (st, snap))
      | some body =>
          (1, match updateStoreWithLLM st body with
              | .ok st2 => .ok (st2, snapshotUserMappings st2 f)
              | .error e => .error e)
    else (0, .ok (st, snap))
  else (0, .ok (st, snap))

def isOkB : Except Unit (Store × Snapshot) → Bool
  | .ok _ => true
  | .error _ => false

/-- Same contents as sets, the comparison the spec asks for buckets. -/
def sameSetB (l1 l2 : List ConceptEntry) : Bool :=
  l1.all (fun e => l2.any (fun x => x = e)) && l2.all (fun e => l1.any (fun x => x = e))

def eraseExpl (e : ConceptEntry) : ConceptEntry := { e with explanation := none }

/-- First entry with the given identity key, modelling the unique binding of
the Python by_id dictionary. -/
def entryFind : List ConceptEntry → (Str × Str) → Option ConceptEntry
  | [], _ => none
  | e :: t, k => if identKey e = k then some e else entryFind t k

/-- Identity-key uniqueness invariant of a bucket entry list. -/
def BucketOk (l : List ConceptEntry) : Prop := (l.map identKey).Nodup

instance (l : List ConceptEntry) : Decidable (BucketOk l) := by
  unfold BucketOk; infer_instance

/-! ## Spec-side definitions for the refinement claims -/

/-- Spec wording of the fallback decomposition: split on commas and on the
literal separator " and ", trim each chunk, discard empties. -/
def specChunks (term : Str) : List Str :=
  (((pySplit ',' [] term).flatMap (pySplit ' ' sepAndTail)).map pyStrip).filter
    (fun c => !c.isEmpty)

/-- Spec wording of the snapshot fallback tier: look up each chunk bucket and
union the results with first-seen deduplication by identity key. -/
def specFallbackSnapshot (st : Store) (catKey : Str) (value : Str) : List ConceptEntry :=
  dedupByKey ((specChunks (normKey value)).flatMap (fun ch => bucketGet (storeGetCat st catKey) ch))

def prependHead (x : Str) : List Str → List Str
  | [] => [x]
  | h :: tl => (x ++ h) :: tl

/-- The stored entry dominates the incoming one in confidence (nulls as 0) and
in label truthiness; re-merging such an incoming entry changes nothing except
possibly the explanation join. -/
def AbsorbsEntry (e m : ConceptEntry) : Prop :=
  confVal m.confidence ≤ confVal e.confidence ∧
  (truthyStr m.concept_label = true → truthyStr e.concept_label = true)

/-- Membership of an incoming entry in the dictionary with a dominating value. -/
def AbsorbedIn (d : List ConceptEntry) (m : ConceptEntry) : Prop :=
  ∃ e, entryFind d (identKey m) = some e ∧ AbsorbsEntry e m

/-! ## Concrete instances used in scenario checks -/

def qHalf : ℚ := ⟨1, 2, by decide, by decide⟩
def qNine : ℚ := ⟨9, 10, by decide, by decide⟩
def qEight : ℚ := ⟨4, 5, by decide, by decide⟩
def qSeven : ℚ := ⟨7, 10, by decide, by decide⟩

def c1HumanItem : LLMItem :=
  ⟨some (strL "human"), some (strL "Human"), some (strL "Wikidata:Q5"), some (strL "Wikidata"),
   some qNine, some (strL "Human species")⟩

def c1BrainItem : LLMItem :=
  ⟨some (strL "brain"), some (strL "Brain"), some (strL "Wikidata:Q1073"), some (strL "Wikidata"),
   some qNine, some (strL "Organ")⟩

def c1Resp : RespBody := ⟨.list [], .list [], .list [.obj c1HumanItem, .obj c1BrainItem]⟩

def c1Fields : RecordFields := ⟨[], [], strL "how the human social brain develops"⟩

def c1Result : Store × Snapshot :=
  match (processRecord emptyStore c1Fields true true (some c1Resp)).2 with
  | .ok p => p
  | .error _ => ([], ⟨[], [], []⟩)

def c2Existing : ConceptEntry :=
  ⟨none, some (strL "x"), some (strL "w"), some qHalf, some (strL "b")⟩

def c2Incoming : ConceptEntry :=
  ⟨none, some (strL "x"), some (strL "w"), some qHalf, some (strL "a")⟩

def c3Entry : ConceptEntry :=
  ⟨some (strL "Writer"), some (strL "W:3"), some (strL "W"), some qHalf, none⟩

def c4EntryA : ConceptEntry :=
  ⟨some (strL "AI"), some (strL "W:1"), some (strL "W"), some qEight, none⟩

def c4EntryB : ConceptEntry :=
  ⟨some (strL "Robotics"), some (strL "W:2"), some (strL "W"), some qSeven, none⟩

def c4Store : Store :=
  [(roleKey, []), (expertiseKey, []),
   (interestKey, [(strL "ai", [c4EntryA]), (strL "robotics", [c4EntryB, c4EntryA])])]

def c6Stored : ConceptEntry :=
  ⟨some (strL "X"), some (strL "W:9"), some (strL "W"), some qHalf, none⟩

def c6Incoming : ConceptEntry :=
  ⟨none, some (strL "W:9"), some (strL "W"), some qNine, none⟩

def c7Fields : RecordFields := ⟨strL "writer", [], []⟩

def c7BadBody : RespBody := ⟨.list [.nonObj (strL "oops")], .absent, .absent⟩

def c9Fields : RecordFields := ⟨strL "writer", [], []⟩

def c10First : ConceptEntry := ⟨some (strL "thing"), none, none, some qHalf, none⟩

def c10Incoming : ConceptEntry := ⟨some (strL "other"), none, some [], some qNine, none⟩

/-! ## Lemmas about the translated string functions -/

theorem isPre_append (x r : Str) : isPre x (x ++ r) = true := by
  induction x with
  | nil => rfl
  | cons a xs ih => simp [isPre, ih]

theorem eq_append_drop_of_isPre : ∀ (x s : Str), isPre x s = true → s = x ++ s.drop x.length := by
  intro x
  induction x with
  | nil => intro s _; simp
  | cons a xs ih =>
      intro s h
      cases s with
      | nil => simp [isPre] at h
      | cons b t =>
          simp only [isPre, Bool.and_eq_true, beq_iff_eq] at h
          obtain ⟨rfl, h2⟩ := h
          simpa using ih t h2

theorem isPre_trans : ∀ {a b c : Str}, isPre a b = true → isPre b c = true → isPre a c = true := by
  intro a
  induction a with
  | nil => intro b c _ _; rfl
  | cons x xs ih =>
      intro b c hab hbc
      cases b with
      | nil => simp [isPre] at hab
      | cons y ys =>
          cases c with
          | nil => simp [isPre] at hbc
          | cons z zs =>
              simp only [isPre, Bool.and_eq_true, beq_iff_eq] at hab hbc ⊢
              exact ⟨hab.1.trans hbc.1, ih hab.2 hbc.2⟩

theorem pySplitF_fuel (o : Char) (sep : Str) :
    ∀ (f1 : Nat), ∀ (f2 : Nat) (s : Str), s.length ≤ f1 → s.length ≤ f2 →
      pySplitF o sep f1 s = pySplitF o sep f2 s := by
  intro f1
  induction f1 with
  | zero =>
      intro f2 s h1 _
      have : s = [] := List.eq_nil_of_length_eq_zero (Nat.le_zero.mp h1)
      subst this
      cases f2 <;> rfl
  | succ f ih =>
      intro f2 s h1 h2
      cases s with
      | nil => cases f2 <;> rfl
      | cons c t =>
          cases f2 with
          | zero => simp at h2
          | succ f2' =>
              simp only [List.length_cons, Nat.succ_le_succ_iff] at h1 h2
              simp only [pySplitF]
              by_cases hp : isPre (o :: sep) (c :: t) = true
              · rw [if_pos hp, if_pos hp,
                  ih f2' (t.drop sep.length) (le_trans (by simp) h1)
                    (le_trans (by simp) h2)]
              · rw [if_neg hp, if_neg hp, ih f2' t h1 h2]

theorem pyReplaceF_fuel (o : Char) (old new : Str) :
    ∀ (f1 : Nat), ∀ (f2 : Nat) (s : Str), s.length ≤ f1 → s.length ≤ f2 →
      pyReplaceF o old new f1 s = pyReplaceF o old new f2 s := by
  intro f1
  induction f1 with
  | zero =>
      intro f2 s h1 _
      have : s = [] := List.eq_nil_of_length_eq_zero (Nat.le_zero.mp h1)
      subst this
      cases f2 <;> rfl
  | succ f ih =>
      intro f2 s h1 h2
      cases s with
      | nil => cases f2 <;> rfl
      | cons c t =>
          cases f2 with
          | zero => simp at h2
          | succ f2' =>
              simp only [List.length_cons, Nat.succ_le_succ_iff] at h1 h2
              simp only [pyReplaceF]
              by_cases hp : isPre (o :: old) (c :: t) = true
              · rw [if_pos hp, if_pos hp,
                  ih f2' (t.drop old.length) (le_trans (by simp) h1)
                    (le_trans (by simp) h2)]
              · rw [if_neg hp, if_neg hp, ih f2' t h1 h2]

theorem pySplit_nil (o : Char) (sep : Str) : pySplit o sep [] = [[]] := rfl

theorem pySplit_cons_pos (o : Char) (sep : Str) (c : Char) (t : Str)
    (h : isPre (o :: sep) (c :: t) = true) :
    pySplit o sep (c :: t) = [] :: pySplit o sep (t.drop sep.length) := by
  show pySplitF o sep (c :: t).length (c :: t) = _
  simp only [List.length_cons, pySplitF, if_pos h]
  rw [pySplitF_fuel o sep t.length (t.drop sep.length).length (t.drop sep.length)
    (by simp) le_rfl]
  rfl

theorem pySplit_cons_neg (o : Char) (sep : Str) (c : Char) (t : Str)
    (h : isPre (o :: sep) (c :: t) = false) :
    pySplit o sep (c :: t) = consHead c (pySplit o sep t) := by
  show pySplitF o sep (c :: t).length (c :: t) = _
  simp only [List.length_cons, pySplitF, h]
  rfl

theorem pyReplace_nil (o : Char) (old new : Str) : pyReplace o old new [] = [] := rfl

theorem pyReplace_cons_pos (o : Char) (old new : Str) (c : Char) (t : Str)
    (h : isPre (o :: old) (c :: t) = true) :
    pyReplace o old new (c :: t) = new ++ pyReplace o old new (t.drop old.length) := by
  show pyReplaceF o old new (c :: t).length (c :: t) = _
  simp only [List.length_cons, pyReplaceF, if_pos h]
  rw [pyReplaceF_fuel o old new t.length (t.drop old.length).length (t.drop old.length)
    (by simp) le_rfl]
  rfl

theorem pyReplace_cons_neg (o : Char) (old new : Str) (c : Char) (t : Str)
    (h : isPre (o :: old) (c :: t) = false) :
    pyReplace o old new (c :: t) = c :: pyReplace o old new t := by
  show pyReplaceF o old new (c :: t).length (c :: t) = _
  simp only [List.length_cons, pyReplaceF, h]
  rfl

theorem consHead_ne_nil (c : Char) (l : List Str) : consHead c l ≠ [] := by
  cases l <;> simp [consHead]

theorem pySplitF_ne_nil (o : Char) (sep : Str) :
    ∀ (f : Nat) (s : Str), pySplitF o sep f s ≠ [] := by
  intro f
  induction f with
  | zero => intro s; simp [pySplitF]
  | succ f ih =>
      intro s
      cases s with
      | nil => simp [pySplitF]
      | cons c t =>
          simp only [pySplitF]
          by_cases hp : isPre (o :: sep) (c :: t) = true
      
          · simp [hp]
          · simp only [hp, if_false, Bool.false_eq_true]
            exact consHead_ne_nil c _

theorem pySplit_ne_nil (o : Char) (sep s : Str) : pySplit o sep s ≠ [] :=
  pySplitF_ne_nil o sep s.length s

theorem consHead_prependHead (c : Char) (x : Str) (l : List Str) :
    consHead c (prependHead x l) = prependHead (c :: x) l := by
  cases l <;> simp [consHead, prependHead]

theorem prependHead_nil_of_ne (l : List Str) (h : l ≠ []) : prependHead [] l = l := by
  cases l with
  | nil => exact absurd rfl h
  | cons a t => simp [prependHead]

theorem consHead_append (c : Char) (x y : List Str) (hx : x ≠ []) :
    consHead c (x ++ y) = consHead c x ++ y := by
  cases x with
  | nil => exact absurd rfl hx
  | cons a t => simp [consHead]

/-- Splitting on a single character not occurring in a leading segment keeps
that segment attached to the first piece of the rest. -/
theorem pySplit_single_append (d : Char) :
    ∀ (x r : Str), (∀ c ∈ x, c ≠ d) →
      pySplit d [] (x ++ r) = prependHead x (pySplit d [] r) := by
  intro x
  induction x with
  | nil =>
      intro r _
      simp only [List.nil_append]
      exact (prependHead_nil_of_ne _ (pySplit_ne_nil d [] r)).symm
  | cons c x' ih =>
      intro r hx
      have hcd : c ≠ d := hx c (by simp)
      have hnp : isPre (d :: []) (c :: (x' ++ r)) = false := by
        simp [isPre, (Ne.symm hcd)]
      rw [List.cons_append, pySplit_cons_neg d [] c (x' ++ r) hnp,
        ih r (fun a ha => hx a (by simp [ha])), consHead_prependHead]

/-- Splitting a string that starts with the separator yields a leading empty
piece followed by the split of the remainder. -/
theorem pySplit_sep_append (o : Char) (sep r : Str) :
    pySplit o sep ((o :: sep) ++ r) = [] :: pySplit o sep r := by
  have h : isPre (o :: sep) (o :: (sep ++ r)) = true := isPre_append (o :: sep) r
  rw [List.cons_append, pySplit_cons_pos o sep o (sep ++ r) h, List.drop_left]

theorem pySplitF_head_isPre (o : Char) (sep : Str) :
    ∀ (f : Nat) (s h : Str) (tl : List Str),
      pySplitF o sep f s = h :: tl → isPre h s = true := by
  intro f
  induction f with
  | zero =>
      intro s h tl he
      simp only [pySplitF] at he
      cases he
      rfl
  | succ f ih =>
      intro s h tl he
      cases s with
      | nil =>
          simp only [pySplitF] at he
          cases he
          rfl
      | cons c t =>
          simp only [pySplitF] at he
          by_cases hp : isPre (o :: sep) (c :: t) = true
          · rw [if_pos hp] at he
            cases he
            rfl
          · rw [if_neg hp] at he
            cases hsp : pySplitF o sep f t with
            | nil =>
                rw [hsp] at he
                simp only [consHead] at he
                cases he
                simp [isPre]
            | cons h2 tl2 =>
                rw [hsp] at he
                simp only [consHead, List.cons.injEq] at he
                obtain ⟨hh, -⟩ := he
                subst hh
                have := ih t h2 tl2 hsp
                simp [isPre, this]

theorem pySplit_head_isPre (o : Char) (sep : Str) (s h : Str) (tl : List Str)
    (he : pySplit o sep s = h :: tl) : isPre h s = true :=
  pySplitF_head_isPre o sep s.length s h tl he

/-- Replacing the literal " and " by a comma and then splitting on commas is
the same as splitting on commas and then splitting each piece on " and ". -/
theorem replace_split_eq_nested (s : Str) :
    pySplit ',' [] (pyReplace ' ' sepAndTail (strL ",") s)
      = (pySplit ',' [] s).flatMap (pySplit ' ' sepAndTail) := by
  suffices h : ∀ (n : Nat) (s : Str), s.length ≤ n →
      pySplit ',' [] (pyReplace ' ' sepAndTail (strL ",") s)
        = (pySplit ',' [] s).flatMap (pySplit ' ' sepAndTail) from h s.length s le_rfl
  intro n
  induction n with
  | zero =>
      intro s hs
      have : s = [] := List.eq_nil_of_length_eq_zero (Nat.le_zero.mp hs)
      subst this
      rfl
  | succ n ih =>
      intro s hs
      cases s with
      | nil => rfl
      | cons c t =>
          simp only [List.length_cons, Nat.succ_le_succ_iff] at hs
          by_cases hA : isPre (' ' :: sepAndTail) (c :: t) = true
          · -- the string starts with the literal " and "
            have hdec := eq_append_drop_of_isPre (' ' :: sepAndTail) (c :: t) hA
            have hdrop : (c :: t).drop (' ' :: sepAndTail).length = t.drop sepAndTail.length := by
              simp
            rw [hdrop] at hdec
            have hlen : (t.drop sepAndTail.length).length ≤ n := le_trans (by simp) hs
            rw [pyReplace_cons_pos ' ' sepAndTail (strL ",") c t hA]
            have hstr : strL "," ++ pyReplace ' ' sepAndTail (strL ",") (t.drop sepAndTail.length)
                = ',' :: pyReplace ' ' sepAndTail (strL ",") (t.drop sepAndTail.length) := rfl
            rw [hstr, pySplit_cons_pos ',' [] ','
              (pyReplace ' ' sepAndTail (strL ",") (t.drop sepAndTail.length)) (by simp [isPre])]
            simp only [List.length_nil, List.drop_zero]
            rw [ih (t.drop sepAndTail.length) hlen]
            conv_rhs => rw [hdec, show (' ' :: sepAndTail ++ t.drop sepAndTail.length)
              = ((' ' :: sepAndTail) ++ t.drop sepAndTail.length) from rfl]
            rw [pySplit_single_append ',' (' ' :: sepAndTail) (t.drop sepAndTail.length)
              (by decide)]
            cases hsp : pySplit ',' [] (t.drop sepAndTail.length) with
            | nil => exact absurd hsp (pySplit_ne_nil ',' [] _)
            | cons h tl =>
                simp only [prependHead, List.flatMap_cons, ← List.cons_append]
                rw [pySplit_sep_append ' ' sepAndTail h]
          · rw [Bool.not_eq_true] at hA
            by_cases hc : c = ','
            · -- a comma that is not part of " and "
              subst hc
              rw [pyReplace_cons_neg ' ' sepAndTail (strL ",") ',' t hA,
                pySplit_cons_pos ',' [] ',' (pyReplace ' ' sepAndTail (strL ",") t)
                  (by simp [isPre]),
                pySplit_cons_pos ',' [] ',' t (by simp [isPre])]
              simp only [List.length_nil, List.drop_zero, List.flatMap_cons]
              rw [ih t hs]
              rfl
            · -- an ordinary character
              rw [pyReplace_cons_neg ' ' sepAndTail (strL ",") c t hA,
                pySplit_cons_neg ',' [] c (pyReplace ' ' sepAndTail (strL ",") t)
                  (by simp [isPre, Ne.symm hc]),
                pySplit_cons_neg ',' [] c t (by simp [isPre, Ne.symm hc]),
                ih t hs]
              cases hsp : pySplit ',' [] t with
              | nil => exact absurd hsp (pySplit_ne_nil ',' [] _)
              | cons h tl =>
                  have hnA : isPre (' ' :: sepAndTail) (c :: h) = false := by
                    by_contra hcon
                    rw [Bool.not_eq_false] at hcon
                    simp only [isPre, Bool.and_eq_true, beq_iff_eq] at hcon
                    have hht : isPre h t = true := pySplit_head_isPre ',' [] t h tl hsp
                    have htr : isPre (' ' :: sepAndTail) (c :: t) = true := by
                      simp only [isPre, Bool.and_eq_true, beq_iff_eq]
                      exact ⟨hcon.1, isPre_trans hcon.2 hht⟩
                    simp [htr] at hA
                  simp only [List.flatMap_cons, consHead]
                  rw [pySplit_cons_neg ' ' sepAndTail c h hnA]
                  exact consHead_append c (pySplit ' ' sepAndTail h)
                    (tl.flatMap (pySplit ' ' sepAndTail)) (pySplit_ne_nil ' ' sepAndTail h)

theorem chunksOf_eq_specChunks (term : Str) : chunksOf term = specChunks term := by
  unfold chunksOf specChunks
  rw [replace_split_eq_nested]

/-! ## Lemmas about the merge algorithm -/

theorem identKey_updEntry (e m : ConceptEntry) : identKey (updEntry e m) = identKey e := rfl

theorem map_identKey_update (acc : List ConceptEntry) (m : ConceptEntry)
    (f : ConceptEntry → ConceptEntry)
    (hf : ∀ e, identKey e = identKey m → identKey (f e) = identKey e) :
    (acc.map (fun e => if identKey e = identKey m then f e else e)).map identKey
      = acc.map identKey := by
  rw [List.map_map]
  apply List.map_congr_left
  intro e _
  by_cases h : identKey e = identKey m
  · simp [h, hf e h]
  · simp [h]

theorem any_eq_mem_keys (l : List ConceptEntry) (k : Str × Str) :
    l.any (fun e => identKey e = k) = true ↔ k ∈ l.map identKey := by
  simp only [List.any_eq_true, decide_eq_true_eq, List.mem_map]

theorem bucketOk_mergeStep (acc : List ConceptEntry) (m : ConceptEntry) (h : BucketOk acc) :
    BucketOk (mergeStep acc m) := by
  unfold BucketOk at h ⊢
  unfold mergeStep
  by_cases hk : acc.any (fun e => identKey e = identKey m) = true
  · rw [if_pos hk, map_identKey_update acc m (fun e => updEntry e m) (fun e _ => rfl)]
    exact h
  · rw [if_neg hk, List.map_append, List.nodup_append]
    refine ⟨h, List.nodup_singleton _, ?_⟩
    intro k hkin hk1
    simp only [List.map_cons, List.map_nil, List.mem_singleton] at hk1
    subst hk1
    exact hk ((any_eq_mem_keys acc (identKey m)).mpr hkin)

theorem bucketOk_dictPut (acc : List ConceptEntry) (m : ConceptEntry) (h : BucketOk acc) :
    BucketOk (dictPut acc m) := by
  unfold BucketOk at h ⊢
  unfold dictPut
  by_cases hk : acc.any (fun e => identKey e = identKey m) = true
  · rw [if_pos hk, map_identKey_update acc m (fun _ => m) (fun e he => he.symm)]
    exact h
  · rw [if_neg hk, List.map_append, List.nodup_append]
    refine ⟨h, List.nodup_singleton _, ?_⟩
    intro k hkin hk1
    simp only [List.map_cons, List.map_nil, List.mem_singleton] at hk1
    subst hk1
    exact hk ((any_eq_mem_keys acc (identKey m)).mpr hkin)

theorem bucketOk_foldl_mergeStep (new : List ConceptEntry) :
    ∀ acc, BucketOk acc → BucketOk (new.foldl mergeStep acc) := by
  induction new with
  | nil => intro acc h; exact h
  | cons m rest ih => intro acc h; exact ih (mergeStep acc m) (bucketOk_mergeStep acc m h)

theorem bucketOk_foldl_dictPut (l : List ConceptEntry) :
    ∀ acc, BucketOk acc → BucketOk (l.foldl dictPut acc) := by
  induction l with
  | nil => intro acc h; exact h
  | cons m rest ih => intro acc h; exact ih (dictPut acc m) (bucketOk_dictPut acc m h)

/-- Any merge result satisfies the identity-key uniqueness invariant, whatever
the inputs, because by_id is a dictionary keyed by identity. -/
theorem bucketOk_merge (existing new : List ConceptEntry) :
    BucketOk (mergeMappingList existing new) :=
  bucketOk_foldl_mergeStep new _
    (bucketOk_foldl_dictPut existing [] (by simp [BucketOk]))

theorem bucketOk_foldl_merge (news : List (List ConceptEntry)) :
    ∀ b0, BucketOk b0 → BucketOk (news.foldl mergeMappingList b0) := by
  induction news with
  | nil => intro b0 h; exact h
  | cons n rest ih => intro b0 _; exact ih (mergeMappingList b0 n) (bucketOk_merge b0 n)

theorem foldl_dictPut_eq_append : ∀ (rest acc : List ConceptEntry),
    ((acc ++ rest).map identKey).Nodup → rest.foldl dictPut acc = acc ++ rest := by
  intro rest
  induction rest with
  | nil => intro acc _; simp
  | cons m rest ih =>
      intro acc h
      have hmem : identKey m ∉ acc.map identKey := by
        intro hin
        rw [List.map_append, List.nodup_append] at h
        exact h.2.2 hin (by simp)
      have hne : acc.any (fun e => identKey e = identKey m) = false := by
        rw [← Bool.not_eq_true, any_eq_mem_keys]
        exact hmem
      simp only [List.foldl_cons]
      have hstep : dictPut acc m = acc ++ [m] := by
        unfold dictPut
        rw [hne]
        simp
      rw [hstep, ih (acc ++ [m]) (by simpa [List.append_assoc] using h)]
      simp

/-- Building the by_id dictionary from a list already satisfying the invariant
gives back the list itself. -/
theorem foldl_dictPut_self (l : List ConceptEntry) (h : BucketOk l) : l.foldl dictPut [] = l := by
  have := foldl_dictPut_eq_append l [] (by simpa [BucketOk] using h)
  simpa using this

theorem entryFind_of_any (l : List ConceptEntry) (k : Str × Str)
    (h : l.any (fun e => identKey e = k) = true) :
    ∃ e, entryFind l k = some e ∧ identKey e = k := by
  induction l with
  | nil => simp at h
  | cons a t ih =>
      by_cases ha : identKey a = k
      · exact ⟨a, by simp [entryFind, ha], ha⟩
      · have ht : t.any (fun e => identKey e = k) = true := by
          simp only [List.any_cons, Bool.or_eq_true, decide_eq_true_eq] at h
          rcases h with h | h
          · exact absurd h ha
          · exact h
        obtain ⟨e, he, hk⟩ := ih ht
        exact ⟨e, by simp [entryFind, ha, he], hk⟩

theorem entryFind_none_of_any_false (l : List ConceptEntry) (k : Str × Str)
    (h : l.any (fun e => identKey e = k) = false) : entryFind l k = none := by
  induction l with
  | nil => rfl
  | cons a t ih =>
      simp only [List.any_cons, Bool.or_eq_false_iff, decide_eq_false_iff_not] at h
      simp [entryFind, h.1, ih h.2]

theorem entryFind_some_mem (l : List ConceptEntry) (k : Str × Str) (e : ConceptEntry)
    (h : entryFind l k = some e) : e ∈ l ∧ identKey e = k := by
  induction l with
  | nil => simp [entryFind] at h
  | cons a t ih =>
      by_cases ha : identKey a = k
      · simp only [entryFind, if_pos ha, Option.some.injEq] at h
        subst h
        exact ⟨by simp, ha⟩
      · simp only [entryFind, if_neg ha] at h
        obtain ⟨hm, hk⟩ := ih h
        exact ⟨by simp [hm], hk⟩

theorem any_of_entryFind_some (l : List ConceptEntry) (k : Str × Str) (e : ConceptEntry)
    (h : entryFind l k = some e) : l.any (fun x => identKey x = k) = true := by
  obtain ⟨hm, hk⟩ := entryFind_some_mem l k e h
  simp only [List.any_eq_true, decide_eq_true_eq]
  exact ⟨e, hm, hk⟩

theorem entryFind_cons (e : ConceptEntry) (t : List ConceptEntry) (k : Str × Str) :
    entryFind (e :: t) k = if identKey e = k then some e else entryFind t k := rfl

theorem entryFind_update (l : List ConceptEntry) (m : ConceptEntry)
    (f : ConceptEntry → ConceptEntry)
    (hf : ∀ e, identKey e = identKey m → identKey (f e) = identKey e) (k : Str × Str) :
    entryFind (l.map (fun e => if identKey e = identKey m then f e else e)) k
      = (entryFind l k).map (fun e => if identKey e = identKey m then f e else e) := by
  induction l with
  | nil => rfl
  | cons a t ih =>
      simp only [List.map_cons]
      have hk : identKey (if identKey a = identKey m then f a else a) = identKey a := by
        by_cases h : identKey a = identKey m
        · simp [h, hf a h]
        · simp [h]
      by_cases ha : identKey a = k
      · have h1 : entryFind ((if identKey a = identKey m then f a else a) ::
            t.map (fun e => if identKey e = identKey m then f e else e)) k
            = some (if identKey a = identKey m then f a else a) := by
          rw [entryFind_cons, if_pos (hk.trans ha)]
        have h2 : entryFind (a :: t) k = some a := by
          rw [entryFind_cons, if_pos ha]
        rw [h1, h2]
        rfl
      · have h1 : entryFind ((if identKey a = identKey m then f a else a) ::
            t.map (fun e => if identKey e = identKey m then f e else e)) k
            = entryFind (t.map (fun e => if identKey e = identKey m then f e else e)) k := by
          rw [entryFind_cons, if_neg (by rw [hk]; exact ha)]
        have h2 : entryFind (a :: t) k = entryFind t k := by
          rw [entryFind_cons, if_neg ha]
        rw [h1, h2, ih]

theorem entryFind_append_some (l : List ConceptEntry) (m e : ConceptEntry) (k : Str × Str)
    (h : entryFind l k = some e) : entryFind (l ++ [m]) k = some e := by
  induction l with
  | nil => simp [entryFind] at h
  | cons a t ih =>
      by_cases ha : identKey a = k
      · simp only [entryFind, if_pos ha, Option.some.injEq] at h
        subst h
        simp only [List.cons_append, entryFind, if_pos ha]
      · simp only [entryFind, if_neg ha] at h
        simp only [List.cons_append, entryFind, if_neg ha]
        exact ih h

theorem entryFind_append_none (l : List ConceptEntry) (m : ConceptEntry) (k : Str × Str)
    (h : entryFind l k = none) :
    entryFind (l ++ [m]) k = if identKey m = k then some m else none := by
  induction l with
  | nil => simp [entryFind]
  | cons a t ih =>
      by_cases ha : identKey a = k
      · simp [entryFind, ha] at h
      · simp only [entryFind, if_neg ha] at h
        simp only [List.cons_append, entryFind, if_neg ha]
        exact ih h

theorem entryFind_unique : ∀ (d : List ConceptEntry) (k : Str × Str) (e : ConceptEntry),
    BucketOk d → entryFind d k = some e → ∀ x ∈ d, identKey x = k → x = e := by
  intro d
  induction d with
  | nil =>
      intro k e _ hf
      simp [entryFind] at hf
  | cons a t ih =>
      intro k e hok hf x hx hkx
      have hok2 : BucketOk t := by
        unfold BucketOk at hok ⊢
        simp only [List.map_cons, List.nodup_cons] at hok
        exact hok.2
      have hnin : identKey a ∉ t.map identKey := by
        unfold BucketOk at hok
        simp only [List.map_cons, List.nodup_cons] at hok
        exact hok.1
      by_cases ha : identKey a = k
      · have he : e = a := by
          simp only [entryFind, if_pos ha, Option.some.injEq] at hf
          exact hf.symm
        subst he
        rcases List.mem_cons.mp hx with rfl | hxt
        · rfl
        · exfalso
          apply hnin
          rw [ha, ← hkx]
          exact List.mem_map_of_mem identKey hxt
      · simp only [entryFind, if_neg ha] at hf
        rcases List.mem_cons.mp hx with rfl | hxt
        · exact absurd hkx ha
        · exact ih k e hok2 hf x hxt hkx

/-! ## Absorption: after a merge, the stored entry dominates each incoming one -/

theorem absorbs_self (m : ConceptEntry) : AbsorbsEntry m m :=
  ⟨le_rfl, fun h => h⟩

theorem absorbs_updEntry_self (e m : ConceptEntry) : AbsorbsEntry (updEntry e m) m := by
  constructor
  · show confVal m.confidence ≤ confVal (if confVal m.confidence > confVal e.confidence
      then m.confidence else e.confidence)
    by_cases h : confVal m.confidence > confVal e.confidence
    · rw [if_pos h]
    · rw [if_neg h]
      exact le_of_not_lt h
  · intro htm
    show truthyStr (if !truthyStr e.concept_label && truthyStr m.concept_label
      then m.concept_label else e.concept_label) = true
    by_cases hte : truthyStr e.concept_label = true
    · simp [hte]
    · simp only [Bool.not_eq_true] at hte
      simp [hte, htm]

theorem absorbs_updEntry_mono (e m x : ConceptEntry) (h : AbsorbsEntry e x) :
    AbsorbsEntry (updEntry e m) x := by
  constructor
  · refine le_trans h.1 ?_
    show confVal e.confidence ≤ confVal (if confVal m.confidence > confVal e.confidence
      then m.confidence else e.confidence)
    by_cases hc : confVal m.confidence > confVal e.confidence
    · rw [if_pos hc]
      exact le_of_lt hc
    · rw [if_neg hc]
  · intro htx
    have hte := h.2 htx
    show truthyStr (if !truthyStr e.concept_label && truthyStr m.concept_label
      then m.concept_label else e.concept_label) = true
    simp [hte]

theorem updEntry_eraseExpl (e m : ConceptEntry) (h : AbsorbsEntry e m) :
    eraseExpl (updEntry e m) = eraseExpl e := by
  have h1 : ¬ (confVal m.confidence > confVal e.confidence) := not_lt.mpr h.1
  have h2 : (!truthyStr e.concept_label && truthyStr m.concept_label) = false := by
    cases htm : truthyStr m.concept_label
    · simp
    · simp [h.2 htm]
  simp [eraseExpl, updEntry, h1, h2]

theorem absorbedIn_mergeStep (d : List ConceptEntry) (m x : ConceptEntry)
    (h : AbsorbedIn d x) : AbsorbedIn (mergeStep d m) x := by
  obtain ⟨e, hf, ha⟩ := h
  unfold mergeStep
  by_cases hk : d.any (fun e => identKey e = identKey m) = true
  · rw [if_pos hk]
    refine ⟨if identKey e = identKey m then updEntry e m else e, ?_, ?_⟩
    · rw [entryFind_update d m (fun e => updEntry e m) (fun _ _ => rfl) (identKey x), hf]
      rfl
    · by_cases hc : identKey e = identKey m
      · rw [if_pos hc]
        exact absorbs_updEntry_mono e m x ha
      · rw [if_neg hc]
        exact ha
  · rw [if_neg hk]
    exact ⟨e, entryFind_append_some d m e (identKey x) hf, ha⟩

theorem absorbedIn_mergeStep_self (d : List ConceptEntry) (m : ConceptEntry) :
    AbsorbedIn (mergeStep d m) m := by
  unfold mergeStep
  by_cases hk : d.any (fun e => identKey e = identKey m) = true
  · rw [if_pos hk]
    obtain ⟨e, hf, hke⟩ := entryFind_of_any d (identKey m) hk
    refine ⟨updEntry e m, ?_, absorbs_updEntry_self e m⟩
    rw [entryFind_update d m (fun e => updEntry e m) (fun _ _ => rfl) (identKey m), hf]
    simp [hke]
  · rw [if_neg hk]
    refine ⟨m, ?_, absorbs_self m⟩
    rw [entryFind_append_none d m (identKey m)
      (entryFind_none_of_any_false d (identKey m) (by simpa using hk))]
    simp

theorem absorbedIn_foldl (new : List ConceptEntry) :
    ∀ d x, AbsorbedIn d x → AbsorbedIn (new.foldl mergeStep d) x := by
  induction new with
  | nil => intro d x h; exact h
  | cons m rest ih =>
      intro d x h
      exact ih (mergeStep d m) x (absorbedIn_mergeStep d m x h)

theorem allAbsorbed_foldl (new : List ConceptEntry) :
    ∀ d, ∀ m ∈ new, AbsorbedIn (new.foldl mergeStep d) m := by
  induction new with
  | nil => intro d m hm; simp at hm
  | cons a rest ih =>
      intro d m hm
      rcases List.mem_cons.mp hm with rfl | hmr
      · exact absorbedIn_foldl rest (mergeStep d m) m (absorbedIn_mergeStep_self d m)
      · exact ih (mergeStep d a) m hmr

theorem foldl_mergeStep_eraseExpl (new : List ConceptEntry) :
    ∀ d, BucketOk d → (∀ m ∈ new, AbsorbedIn d m) →
      (new.foldl mergeStep d).map eraseExpl = d.map eraseExpl := by
  induction new with
  | nil => intro d _ _; rfl
  | cons m rest ih =>
      intro d hok habs
      obtain ⟨e, hf, ha⟩ := habs m (by simp)
      have hk : d.any (fun x => identKey x = identKey m) = true :=
        any_of_entryFind_some d (identKey m) e hf
      have hstep : mergeStep d m
          = d.map (fun x => if identKey x = identKey m then updEntry x m else x) := by
        unfold mergeStep
        rw [if_pos hk]
      have herase : (mergeStep d m).map eraseExpl = d.map eraseExpl := by
        rw [hstep, List.map_map]
        apply List.map_congr_left
        intro x hx
        by_cases hc : identKey x = identKey m
        · have hxe : x = e := entryFind_unique d (identKey m) e hok hf x hx hc
          subst hxe
          simp only [Function.comp_apply, if_pos hc]
          exact updEntry_eraseExpl x m ha
        · simp [Function.comp_apply, hc]
      have hok2 : BucketOk (mergeStep d m) := bucketOk_mergeStep d m hok
      have habs2 : ∀ a ∈ rest, AbsorbedIn (mergeStep d m) a := by
        intro a haR
        exact absorbedIn_mergeStep d m a (habs a (by simp [haR]))
      calc ((m :: rest).foldl mergeStep d).map eraseExpl
        = (rest.foldl mergeStep (mergeStep d m)).map eraseExpl := rfl
        _ = (mergeStep d m).map eraseExpl := ih (mergeStep d m) hok2 habs2
        _ = d.map eraseExpl := herase

theorem merge_singleton_eq_mergeStep (b : List ConceptEntry) (m : ConceptEntry)
    (hok : BucketOk b) : mergeMappingList b [m] = mergeStep b m := by
  unfold mergeMappingList
  rw [foldl_dictPut_self b hok]
  rfl

theorem filter_key_length_le_one (k : Str × Str) :
    ∀ (b : List ConceptEntry), BucketOk b →
      (b.filter (fun e => identKey e = k)).length ≤ 1 := by
  intro b
  induction b with
  | nil => intro _; simp
  | cons a t ih =>
      intro hok
      have hok2 : BucketOk t := by
        unfold BucketOk at hok ⊢
        simp only [List.map_cons, List.nodup_cons] at hok
        exact hok.2
      have hnin : identKey a ∉ t.map identKey := by
        unfold BucketOk at hok
        simp only [List.map_cons, List.nodup_cons] at hok
        exact hok.1
      by_cases ha : identKey a = k
      · have ht : t.filter (fun e => identKey e = k) = [] := by
          rw [List.filter_eq_nil_iff]
          intro x hx
          simp only [decide_eq_true_eq]
          intro hkx
          exact hnin (ha ▸ hkx ▸ List.mem_map_of_mem identKey hx)
        simp [List.filter_cons, ha, ht]
      · simp only [List.filter_cons, decide_eq_true_eq]
        rw [if_neg ha]
        exact ih hok2

theorem merge_length_of_key_present (b : List ConceptEntry) (m : ConceptEntry)
    (hok : BucketOk b) (h : b.any (fun e => identKey e = identKey m) = true) :
    (mergeMappingList b [m]).length = b.length := by
  rw [merge_singleton_eq_mergeStep b m hok]
  unfold mergeStep
  rw [if_pos h, List.length_map]

theorem storeHasKey_setdefault_self (st : Store) (k : Str) :
    storeHasKey (storeSetdefault st k) k = true := by
  unfold storeSetdefault
  by_cases h : storeHasKey st k = true
  · rw [if_pos h]
    exact h
  · rw [if_neg h]
    unfold storeHasKey
    simp

theorem storeHasKey_setdefault_mono (st : Store) (k k2 : Str)
    (h : storeHasKey st k = true) : storeHasKey (storeSetdefault st k2) k = true := by
  unfold storeSetdefault
  by_cases h2 : storeHasKey st k2 = true
  · rw [if_pos h2]
    exact h
  · rw [if_neg h2]
    unfold storeHasKey at h ⊢
    simp only [List.any_append, Bool.or_eq_true]
    exact Or.inl h

/-! ## Claim theorems -/

/-- C1 counterexample: with an initially empty store and the documented
example response for the field Interest = how the human social brain
develops (items with source terms human and brain, both confidence 0.9),
the run succeeds, but the store keyed at the full raw field value is empty
rather than the two returned entries, and the record snapshot for Interest
is empty as well: the code keys the store by the normalized source_term of
each response item, not by the full raw field value. -/
theorem c1_counterexample :
    isOkB (processRecord emptyStore c1Fields true true (some c1Resp)).2 = true ∧
    bucketGet (storeGetCat c1Result.1 interestKey) (normKey c1Fields.interest) = [] ∧
    sameSetB (bucketGet (storeGetCat c1Result.1 interestKey) (normKey c1Fields.interest))
      [toEntry c1HumanItem, toEntry c1BrainItem] = false ∧
    c1Result.2.interest = [] ∧
    sameSetB c1Result.2.interest [toEntry c1HumanItem, toEntry c1BrainItem] = false := by
  decide

/-- C1 amended: the classifier response is merged under term = the normalized
source_term of each response item; in the scenario the store afterwards maps
the Interest terms human and brain to the corresponding single entries, the
full field value stays unmapped, and the record snapshot for Interest stays
empty because neither the full field nor its comma/and chunks are store keys. -/
theorem c1_amended_store_keyed_by_source_term :
    bucketGet (storeGetCat c1Result.1 interestKey) (strL "human") = [toEntry c1HumanItem] ∧
    bucketGet (storeGetCat c1Result.1 interestKey) (strL "brain") = [toEntry c1BrainItem] ∧
    c1Result.2.interest = [] := by
  decide

/-- C2 counterexample: merge is not idempotent: with a stored explanation b
and an incoming explanation a for the same identity key, one merge stores the
join a; b and a second merge of the same incoming list joins again to
a; a; b, so the bucket contents differ even compared as sets. -/
theorem c2_counterexample :
    sameSetB (mergeMappingList (mergeMappingList [c2Existing] [c2Incoming]) [c2Incoming])
      (mergeMappingList [c2Existing] [c2Incoming]) = false := by
  decide

/-- C2 amended: merge is idempotent up to the explanation field: re-merging
the same incoming list leaves the bucket unchanged entrywise in identity key,
concept_label and confidence (the same list with only explanations possibly
differing); the explanation join alone is not idempotent. -/
theorem c2_amended_idempotent_up_to_explanation (existing new : List ConceptEntry) :
    (mergeMappingList (mergeMappingList existing new) new).map eraseExpl
      = (mergeMappingList existing new).map eraseExpl := by
  have habs : ∀ m ∈ new, AbsorbedIn (mergeMappingList existing new) m := by
    intro m hm
    exact allAbsorbed_foldl new (existing.foldl dictPut []) m hm
  have hok : BucketOk (mergeMappingList existing new) := bucketOk_merge existing new
  show (new.foldl mergeStep ((mergeMappingList existing new).foldl dictPut [])).map eraseExpl
      = (mergeMappingList existing new).map eraseExpl
  rw [foldl_dictPut_self _ hok]
  exact foldl_mergeStep_eraseExpl new _ hok habs

/-- C3: starting from a bucket satisfying the identity uniqueness invariant,
any finite sequence of merges preserves it: no two entries of the resulting
bucket share an identity key. -/
theorem c3_identity_uniqueness_invariant (news : List (List ConceptEntry))
    (b0 : List ConceptEntry) (h : BucketOk b0) :
    BucketOk (news.foldl mergeMappingList b0) :=
  bucketOk_foldl_merge news b0 h

theorem c3_witness :
    BucketOk ([] : List ConceptEntry) ∧
    BucketOk ([[c3Entry], [c3Entry]].foldl mergeMappingList []) :=
  ⟨by decide, c3_identity_uniqueness_invariant [[c3Entry], [c3Entry]] [] (by decide)⟩

/-- C4: when the normalized field value is not a key of the category bucket,
the snapshot equals the spec description of the fallback: split the
normalized value on commas and on the literal separator " and ", trim each
chunk and discard empties, look up each chunk bucket, and union the results
with first-seen deduplication by identity key. -/
theorem c4_fallback_refines_spec (st : Store) (catKey value : Str)
    (h : bucketHas (storeGetCat st catKey) (normKey value) = false) :
    snapshotCat st catKey value = specFallbackSnapshot st catKey value := by
  simp only [snapshotCat, specFallbackSnapshot]
  by_cases he : (normKey value).isEmpty = true
  · rw [if_pos he]
    have hnil : normKey value = [] := by simpa using he
    rw [hnil]
    have hs : specChunks [] = [] := by decide
    rw [hs]
    rfl
  · rw [if_neg he, if_neg (by simp [h]), chunksOf_eq_specChunks]

theorem c4_witness :
    bucketHas (storeGetCat c4Store interestKey) (normKey (strL "AI, robotics")) = false ∧
    snapshotCat c4Store interestKey (strL "AI, robotics")
      = specFallbackSnapshot c4Store interestKey (strL "AI, robotics") ∧
    snapshotCat c4Store interestKey (strL "AI, robotics") = [c4EntryA, c4EntryB] :=
  ⟨by decide,
   c4_fallback_refines_spec c4Store interestKey (strL "AI, robotics") (by decide),
   by decide⟩

/-- C5: the exact tier of the snapshot builder: an empty normalized value
yields the empty list with no lookup, and when the nonempty normalized whole
value is a key of the category bucket the snapshot is precisely that bucket. -/
theorem c5_exact_tier (st : Store) (catKey value : Str) :
    (normKey value = [] → snapshotCat st catKey value = []) ∧
    (normKey value ≠ [] →
      bucketHas (storeGetCat st catKey) (normKey value) = true →
      snapshotCat st catKey value = bucketGet (storeGetCat st catKey) (normKey value)) := by
  constructor
  · intro h
    simp only [snapshotCat]
    rw [if_pos (by simp [h])]
  · intro hne hb
    simp only [snapshotCat]
    rw [if_neg (by simp [hne]), if_pos hb]

theorem c5_witness :
    snapshotCat c4Store interestKey (strL "  ") = [] ∧
    snapshotCat c4Store interestKey (strL " AI ")
      = bucketGet (storeGetCat c4Store interestKey) (normKey (strL " AI ")) :=
  ⟨(c5_exact_tier c4Store interestKey (strL "  ")).1 (by decide),
   (c5_exact_tier c4Store interestKey (strL " AI ")).2 (by decide) (by decide)⟩

/-- C6: when an incoming entry matches an existing identity key, the stored
confidence is replaced exactly when the incoming confidence is strictly
greater with nulls coerced to 0, otherwise kept unchanged; a null stored
confidence is only overwritten by a non-null positive value; hence the
stored coerced confidence never decreases, in particular merging an entry of
lower or equal confidence leaves it untouched. -/
theorem c6_confidence_rule (existing : List ConceptEntry) (m e : ConceptEntry)
    (hok : BucketOk existing)
    (hf : entryFind existing (identKey m) = some e) :
    ∃ e2, entryFind (mergeMappingList existing [m]) (identKey m) = some e2 ∧
      (confVal m.confidence > confVal e.confidence → e2.confidence = m.confidence) ∧
      (confVal m.confidence ≤ confVal e.confidence → e2.confidence = e.confidence) ∧
      confVal e.confidence ≤ confVal e2.confidence ∧
      (e.confidence = none → e2.confidence ≠ none →
        ∃ q, m.confidence = some q ∧ 0 < q ∧ e2.confidence = some q) := by
  have hany : existing.any (fun x => identKey x = identKey m) = true :=
    any_of_entryFind_some existing (identKey m) e hf
  have hke : identKey e = identKey m := (entryFind_some_mem existing (identKey m) e hf).2
  rw [merge_singleton_eq_mergeStep existing m hok]
  unfold mergeStep
  rw [if_pos hany]
  have he2 : (updEntry e m).confidence
      = if confVal m.confidence > confVal e.confidence then m.confidence
        else e.confidence := rfl
  refine ⟨updEntry e m, ?_, ?_, ?_, ?_, ?_⟩
  · rw [entryFind_update existing m (fun x => updEntry x m) (fun _ _ => rfl) (identKey m), hf]
    simp [hke]
  · intro hgt
    rw [he2, if_pos hgt]
  · intro hle
    rw [he2, if_neg (not_lt.mpr hle)]
  · rw [he2]
    by_cases hgt : confVal m.confidence > confVal e.confidence
    · rw [if_pos hgt]
      exact le_of_lt hgt
    · rw [if_neg hgt]
  · intro hen hne
    rw [he2] at hne ⊢
    by_cases hgt : confVal m.confidence > confVal e.confidence
    · rw [if_pos hgt] at hne ⊢
      obtain ⟨q, hq⟩ := Option.ne_none_iff_exists.mp hne
      rw [hen] at hgt
      rw [← hq] at hgt
      simp only [confVal, Option.getD_some, Option.getD_none] at hgt
      exact ⟨q, hq.symm, hgt, hq.symm⟩
    · rw [if_neg hgt, hen] at hne
      exact absurd rfl hne

theorem c6_witness :
    ∃ e2, entryFind (mergeMappingList [c6Stored] [c6Incoming]) (identKey c6Incoming) = some e2 ∧
      (confVal c6Incoming.confidence > confVal c6Stored.confidence →
        e2.confidence = c6Incoming.confidence) ∧
      (confVal c6Incoming.confidence ≤ confVal c6Stored.confidence →
        e2.confidence = c6Stored.confidence) ∧
      confVal c6Stored.confidence ≤ confVal e2.confidence ∧
      (c6Stored.confidence = none → e2.confidence ≠ none →
        ∃ q, c6Incoming.confidence = some q ∧ 0 < q ∧ e2.confidence = some q) :=
  c6_confidence_rule [c6Stored] c6Incoming c6Stored (by decide) (by decide)

/-- C7 amended: when the classifier call delivers no response, that is when a
network error, a non-success status or an unparsable body was swallowed into
None, the run does not abort, no merge into the store happens for the record,
and the record keeps exactly the snapshot it already had; a body that parses
as JSON but does not match the expected three-key entry-list shape is not
treated as a failure and can abort the run instead. -/
theorem c7_failure_keeps_snapshot (st : Store) (f : RecordFields) (en key : Bool) :
    (processRecord st f en key none).2 = Except.ok (st, snapshotUserMappings st f) := by
  simp only [processRecord]
  by_cases h1 : (en && needsEnrichment st f) = true
  · rw [if_pos h1]
    by_cases h2 : key = true
    · rw [if_pos h2]
    · rw [if_neg h2]
  · rw [if_neg h1]

/-- C7 counterexample: a response body that parses as JSON but does not match
the expected shape, here a bare string among the Role items, is not treated
as a classifier failure: the update raises and the whole run aborts, with the
single classifier call having been made. -/
theorem c7_counterexample :
    isOkB (processRecord emptyStore c7Fields true true (some c7BadBody)).2 = false ∧
    (processRecord emptyStore c7Fields true true (some c7BadBody)).1 = 1 := by
  decide

/-- C8: loading the persisted store always yields a store in which the three
category keys are present: for an absent, empty or unparsable file the result
is exactly the fresh empty three-category store, and for a parsed file the
three keys are set-defaulted in; the translation is total, so loading never
raises. -/
theorem c8_load_robust (fs : FileState) :
    (storeHasKey (loadStore fs) roleKey = true ∧
     storeHasKey (loadStore fs) expertiseKey = true ∧
     storeHasKey (loadStore fs) interestKey = true) ∧
    (fs = FileState.absent ∨ fs = FileState.empty ∨ fs = FileState.unparsable →
      loadStore fs = emptyStore) := by
  constructor
  · cases fs with
    | absent => exact ⟨by decide, by decide, by decide⟩
    | empty => exact ⟨by decide, by decide, by decide⟩
    | unparsable => exact ⟨by decide, by decide, by decide⟩
    | parsed data =>
        refine ⟨?_, ?_, ?_⟩
        · exact storeHasKey_setdefault_mono _ _ _
            (storeHasKey_setdefault_mono _ _ _ (storeHasKey_setdefault_self data roleKey))
        · exact storeHasKey_setdefault_mono _ _ _
            (storeHasKey_setdefault_self (storeSetdefault data roleKey) expertiseKey)
        · exact storeHasKey_setdefault_self
            (storeSetdefault (storeSetdefault data roleKey) expertiseKey) interestKey
  · intro h
    rcases h with rfl | rfl | rfl <;> rfl

theorem c8_witness :
    loadStore FileState.unparsable = emptyStore ∧
    storeHasKey (loadStore (FileState.parsed [])) roleKey = true :=
  ⟨(c8_load_robust FileState.unparsable).2 (Or.inr (Or.inr rfl)),
   (c8_load_robust (FileState.parsed [])).1.1⟩

/-- C9: at most one classifier call is made per record, the single call
covering the three categories jointly, and a call is made only when some
category has a nonempty normalized field value whose snapshot is empty. -/
theorem c9_at_most_one_call (st : Store) (f : RecordFields) (en key : Bool)
    (oracle : Option RespBody) :
    (processRecord st f en key oracle).1 ≤ 1 ∧
    ((processRecord st f en key oracle).1 = 1 → needsEnrichment st f = true) := by
  simp only [processRecord]
  by_cases h1 : (en && needsEnrichment st f) = true
  · rw [if_pos h1]
    have hen : needsEnrichment st f = true := by
      simp only [Bool.and_eq_true] at h1
      exact h1.2
    by_cases h2 : key = true
    · rw [if_pos h2]
      cases oracle with
      | none => exact ⟨le_rfl, fun _ => hen⟩
      | some body => exact ⟨le_rfl, fun _ => hen⟩
    · rw [if_neg h2]
      exact ⟨Nat.zero_le 1, fun hc => absurd hc (by simp)⟩
  · rw [if_neg h1]
    exact ⟨Nat.zero_le 1, fun hc => absurd hc (by simp)⟩

theorem c9_witness : needsEnrichment emptyStore c9Fields = true :=
  (c9_at_most_one_call emptyStore c9Fields true true none).2 (by decide)

/-- C10: entries whose ontology_id and ontology are both null or empty all
share the identity key of two empty strings; after any finite sequence of
merges from an invariant bucket at most one entry carries that key; and
merging a further null-identity entry into a bucket already holding one folds
it in without growing the bucket. -/
theorem c10_null_identity_collapse (b0 : List ConceptEntry)
    (news : List (List ConceptEntry)) (m : ConceptEntry) (hok : BucketOk b0)
    (hm1 : m.ontology_id = none ∨ m.ontology_id = some [])
    (hm2 : m.ontology = none ∨ m.ontology = some []) :
    identKey m = ([], []) ∧
    ((news.foldl mergeMappingList b0).filter (fun e => identKey e = ([], []))).length ≤ 1 ∧
    ((news.foldl mergeMappingList b0).any (fun e => identKey e = ([], [])) = true →
      (mergeMappingList (news.foldl mergeMappingList b0) [m]).length
        = (news.foldl mergeMappingList b0).length) := by
  have hkm : identKey m = ([], []) := by
    unfold identKey
    rcases hm1 with h1 | h1 <;> rcases hm2 with h2 | h2 <;> simp [h1, h2]
  have hfold : BucketOk (news.foldl mergeMappingList b0) := bucketOk_foldl_merge news b0 hok
  refine ⟨hkm, filter_key_length_le_one ([], []) _ hfold, ?_⟩
  intro hany
  apply merge_length_of_key_present _ m hfold
  rw [hkm]
  exact hany

theorem c10_witness :
    identKey c10Incoming = ([], []) ∧
    (([[c10First]].foldl mergeMappingList []).filter
      (fun e => identKey e = ([], []))).length ≤ 1 ∧
    (mergeMappingList ([[c10First]].foldl mergeMappingList []) [c10Incoming]).length
      = ([[c10First]].foldl mergeMappingList []).length := by
  have h := c10_null_identity_collapse [] [[c10First]] c10Incoming (by decide)
    (Or.inl rfl) (Or.inr rfl)
  exact ⟨h.1, h.2.1, h.2.2 (by decide)⟩
